import Mathlib

/-
Verification of the assuo patch engine (src/main.rs, src/models.rs).

The embedding models bytes as Nat (the engine never inspects byte values),
Vec as List, and every Rust panic as a typed error, following the
specification's reframing of panics as typed failures:
  outOfBounds     - the panic inside get_index ("assuo patch out of bounds?")
  underflow       - usize subtraction overflow in insertion_point - count
  rangeOverrun    - a slice or splice range reaching past the end of a Vec
  resolutionError - the panic "unimplemented route" in AssuoSource::resolve
-/

namespace Assuo

/-- Direction of a modification (models.rs, enum Direction). -/
inductive Direction
  | Pre
  | Post
deriving DecidableEq

/-- Declarative source of bytes (models.rs, enum AssuoSource). -/
inductive AssuoSource
  | Bytes (bytes : List Nat)
  | Text (text : String)
  | Url (url : String)
  | File (path : String)
  | AssuoUrl (url : String)
  | AssuoFile (path : String)
deriving DecidableEq

/-- One patch action (models.rs, enum AssuoPatch<S>). -/
inductive AssuoPatch (S : Type)
  | Insert (way : Direction) (spot : Nat) (source : S)
  | Remove (way : Direction) (spot : Nat) (count : Nat)
deriving DecidableEq

/-- The spot field shared by both patch variants. -/
def AssuoPatch.spotOf {S : Type} : AssuoPatch S → Nat
  | .Insert _ spot _ => spot
  | .Remove _ spot _ => spot

/-- An assuo patch file (models.rs, struct AssuoFile<S>). -/
structure AssuoFile (S : Type) where
  source : S
  patch : Option (List (AssuoPatch S))

/-- Typed failures standing for the panics of the Rust program. -/
inductive PatchError
  | outOfBounds
  | underflow
  | rangeOverrun
  | resolutionError
deriving DecidableEq

deriving instance DecidableEq for Except

/-- Rust std::usize::MAX on a 64-bit target, the value used for sentinel groups. -/
def USIZE_MAX : Nat := 2 ^ 64 - 1

/-- AssuoSource::resolve (models.rs lines 99-107): Bytes and Text resolve to
their bytes, every other variant hits the panic "unimplemented route". -/
def AssuoSource.resolve : AssuoSource → Except PatchError (List Nat)
  | .Bytes bytes => .ok bytes
  | .Text text => .ok ((text.data.flatMap String.utf8EncodeChar).map (fun b => b.toNat))
  | .Url _ => .error .resolutionError
  | .File _ => .error .resolutionError
  | .AssuoUrl _ => .error .resolutionError
  | .AssuoFile _ => .error .resolutionError

/-- AssuoPatch::resolve (models.rs lines 85-97). -/
def AssuoPatch.resolve : AssuoPatch AssuoSource → Except PatchError (AssuoPatch (List Nat))
  | .Insert way spot source =>
    match source.resolve with
    | .ok bytes => .ok (.Insert way spot bytes)
    | .error e => .error e
  | .Remove way spot count => .ok (.Remove way spot count)

/-- get_index (main.rs lines 72-80): index of the first group containing i,
none standing for the panic "assuo patch out of bounds?". -/
def get_index (indexes : List (List Nat)) (i : Nat) : Option Nat :=
  match indexes with
  | [] => none
  | g :: rest => if i ∈ g then some 0 else (get_index rest i).map (fun p => p + 1)

/-- The push inside the fold of main.rs lines 110-117: push e unless acc
already contains it. -/
def push_unique (a : List Nat) (e : Nat) : List Nat :=
  if e ∈ a then a else a ++ [e]

/-- The fold of main.rs lines 108-117: deduplicating union of a list of groups. -/
def fold_union (gs : List (List Nat)) : List Nat :=
  gs.foldl (fun acc elem => elem.foldl push_unique acc) []

/-- The mutable state of do_patch: the byte buffer (file.source) and the
offset map (indexes). -/
structure PatchState where
  source : List Nat
  indexes : List (List Nat)
deriving DecidableEq

/-- The body of the Remove arm after the insertion point is known
(main.rs lines 108-122): slice the groups, splice their union in as one
group, splice the same range out of the buffer. Either splice whose range
passes the end of its Vec panics, modelled as rangeOverrun. -/
def removeAt (st : PatchState) (ip count : Nat) : Except PatchError PatchState :=
  if ip + count ≤ st.indexes.length then
    if ip + count ≤ st.source.length then
      .ok ⟨st.source.take ip ++ st.source.drop (ip + count),
           st.indexes.take ip ++ [fold_union ((st.indexes.drop ip).take count)] ++ st.indexes.drop (ip + count)⟩
    else .error .rangeOverrun
  else .error .rangeOverrun

/-- The body of the Insert arm after the insertion point is known
(main.rs lines 93-98): splice one sentinel group per inserted byte into the
offset map and splice the bytes into the buffer. The splice into indexes
cannot overrun because the insertion point is at most indexes.length; the
splice into the buffer panics when the insertion point passes the buffer
length, modelled as rangeOverrun. -/
def insertAt (st : PatchState) (ip : Nat) (source : List Nat) : Except PatchError PatchState :=
  if ip ≤ st.source.length then
    .ok ⟨st.source.take ip ++ source ++ st.source.drop ip,
         st.indexes.take ip ++ List.replicate source.length [USIZE_MAX] ++ st.indexes.drop ip⟩
  else .error .rangeOverrun

/-- One iteration of the patch loop of do_patch (main.rs lines 83-125).
For Remove Pre, the usize subtraction insertion_point - count fails on
underflow instead of wrapping. -/
def applyPatch (st : PatchState) (p : AssuoPatch (List Nat)) : Except PatchError PatchState :=
  match p with
  | .Insert way spot source =>
    match get_index st.indexes spot with
    | none => .error .outOfBounds
    | some p0 =>
      insertAt st (match way with | .Pre => p0 | .Post => p0 + 1) source
  | .Remove way spot count =>
    match get_index st.indexes spot with
    | none => .error .outOfBounds
    | some p0 =>
      match way with
      | .Post => removeAt st (p0 + 1) count
      | .Pre => if count ≤ p0 then removeAt st (p0 - count) count else .error .underflow

/-- The patch loop of do_patch: apply each resolved patch sequentially,
aborting on the first failure. -/
def applyPatches (st : PatchState) : List (AssuoPatch (List Nat)) → Except PatchError PatchState
  | [] => .ok st
  | p :: rest =>
    match applyPatch st p with
    | .ok st1 => applyPatches st1 rest
    | .error e => .error e

/-- The initial offset map of do_patch (main.rs lines 67-70): one singleton
group per byte of the resolved source. -/
def initIndexes (n : Nat) : List (List Nat) :=
  (List.range n).map (fun i => [i])

/-- The patch engine on a resolved base and resolved patches: build the
initial offset map, run the loop, return the final buffer. -/
def apply_base (source : List Nat) (patches : List (AssuoPatch (List Nat))) : Except PatchError (List Nat) :=
  match applyPatches ⟨source, initIndexes source.length⟩ patches with
  | .ok st => .ok st.source
  | .error e => .error e

/-- Resolution of the whole patch list (main.rs lines 56-61), aborting at
the first panicking resolve. -/
def resolvePatches : List (AssuoPatch AssuoSource) → Except PatchError (List (AssuoPatch (List Nat)))
  | [] => .ok []
  | p :: rest =>
    match p.resolve with
    | .error e => .error e
    | .ok rp =>
      match resolvePatches rest with
      | .error e => .error e
      | .ok rps => .ok (rp :: rps)

/-- do_patch (main.rs lines 48-128): resolve the base, resolve every patch,
then apply them all. -/
def do_patch (file : AssuoFile AssuoSource) : Except PatchError (List Nat) :=
  match file.source.resolve with
  | .error e => .error e
  | .ok source =>
    match resolvePatches (file.patch.getD []) with
    | .error e => .error e
    | .ok patches => apply_base source patches

/-- Number of Remove actions in a patch list. -/
def countRemoves : List (AssuoPatch (List Nat)) → Nat
  | [] => 0
  | p :: rest => (match p with | .Insert _ _ _ => 0 | .Remove _ _ _ => 1) + countRemoves rest

/-! Helper lemmas about get_index. -/

theorem get_index_lt_length {idx : List (List Nat)} {s p : Nat}
    (h : get_index idx s = some p) : p < idx.length := by
  induction idx generalizing p with
  | nil => simp [get_index] at h
  | cons g rest ih =>
    rw [get_index] at h
    by_cases hg : s ∈ g
    · rw [if_pos hg] at h
      injection h with h
      simp [← h]
    · rw [if_neg hg] at h
      cases hr : get_index rest s with
      | none => rw [hr] at h; cases h
      | some q =>
        rw [hr] at h
        injection h with h
        have := ih hr
        simp [← h, List.length_cons]
        omega

theorem get_index_eq_none {idx : List (List Nat)} {s : Nat}
    (h : ∀ g ∈ idx, s ∉ g) : get_index idx s = none := by
  induction idx with
  | nil => rfl
  | cons g rest ih =>
    have h1 : s ∉ g := h g (List.mem_cons_self g rest)
    have h2 : get_index rest s = none := ih (fun g2 hg2 => h g2 (List.mem_cons_of_mem _ hg2))
    rw [get_index, if_neg h1, h2]
    rfl

theorem get_index_append_left {A : List (List Nat)} {s p : Nat} (B : List (List Nat))
    (h : get_index A s = some p) : get_index (A ++ B) s = some p := by
  induction A generalizing p with
  | nil => simp [get_index] at h
  | cons g rest ih =>
    rw [get_index] at h
    rw [List.cons_append, get_index]
    by_cases hg : s ∈ g
    · rw [if_pos hg] at h ⊢
      exact h
    · rw [if_neg hg] at h ⊢
      cases hr : get_index rest s with
      | none => rw [hr] at h; cases h
      | some q =>
        rw [hr] at h
        rw [ih hr]
        exact h

theorem get_index_append_none {A : List (List Nat)} {s : Nat} (B : List (List Nat))
    (h : get_index A s = none) :
    get_index (A ++ B) s = (get_index B s).map (fun p => p + A.length) := by
  induction A with
  | nil =>
    rw [List.nil_append]
    cases get_index B s <;> simp
  | cons g rest ih =>
    rw [get_index] at h
    by_cases hg : s ∈ g
    · rw [if_pos hg] at h; cases h
    · rw [if_neg hg] at h
      have hrest : get_index rest s = none := by
        cases hr : get_index rest s with
        | none => rfl
        | some q => rw [hr] at h; cases h
      rw [List.cons_append, get_index, if_neg hg, ih hrest]
      cases get_index B s with
      | none => rfl
      | some q =>
        simp [List.length_cons]
        omega

theorem get_index_take_none {idx : List (List Nat)} {s p : Nat} (ip : Nat)
    (h : get_index idx s = some p) (hip : ip ≤ idx.length) (hp : ip ≤ p) :
    get_index (idx.take ip) s = none := by
  cases ht : get_index (idx.take ip) s with
  | none => rfl
  | some q =>
    exfalso
    have hfull := get_index_append_left (idx.drop ip) ht
    rw [List.take_append_drop] at hfull
    rw [h] at hfull
    injection hfull with hfull
    have hql := get_index_lt_length ht
    rw [List.length_take] at hql
    omega

theorem get_index_take_some {idx : List (List Nat)} {s p : Nat} (ip : Nat)
    (h : get_index idx s = some p) (hip : ip ≤ idx.length) (hp : p < ip) :
    get_index (idx.take ip) s = some p := by
  cases ht : get_index (idx.take ip) s with
  | none =>
    exfalso
    have hfull := get_index_append_none (idx.drop ip) ht
    rw [List.take_append_drop, h, List.length_take] at hfull
    cases hd : get_index (idx.drop ip) s with
    | none => rw [hd] at hfull; cases hfull
    | some q =>
      rw [hd] at hfull
      simp only [Option.map_some'] at hfull
      injection hfull with hfull
      omega
  | some q =>
    have hfull := get_index_append_left (idx.drop ip) ht
    rw [List.take_append_drop] at hfull
    rw [h] at hfull
    injection hfull with hfull
    rw [hfull]

theorem get_index_drop {idx : List (List Nat)} {s p : Nat} (ip : Nat)
    (h : get_index idx s = some p) (hip : ip ≤ idx.length) (hp : ip ≤ p) :
    get_index (idx.drop ip) s = some (p - ip) := by
  have ht := get_index_take_none ip h hip hp
  have hfull := get_index_append_none (idx.drop ip) ht
  rw [List.take_append_drop, h, List.length_take] at hfull
  cases hd : get_index (idx.drop ip) s with
  | none => rw [hd] at hfull; cases hfull
  | some q =>
    rw [hd] at hfull
    simp only [Option.map_some'] at hfull
    injection hfull with hfull
    have hq : q = p - ip := by omega
    rw [hq]

theorem get_index_replicate_none {s : Nat} {g : List Nat} (k : Nat) (h : s ∉ g) :
    get_index (List.replicate k g) s = none := by
  induction k with
  | zero => rfl
  | succ n ih =>
    rw [List.replicate_succ, get_index, if_neg h, ih]
    rfl

/-! Helper lemmas about fold_union. -/

theorem mem_foldl_push_unique (g : List Nat) (acc : List Nat) (x : Nat) :
    x ∈ g.foldl push_unique acc ↔ x ∈ acc ∨ x ∈ g := by
  induction g generalizing acc with
  | nil => simp
  | cons e rest ih =>
    rw [List.foldl_cons, ih]
    unfold push_unique
    by_cases he : e ∈ acc
    · rw [if_pos he]
      constructor
      · rintro (h | h)
        · exact Or.inl h
        · exact Or.inr (List.mem_cons_of_mem _ h)
      · rintro (h | h)
        · exact Or.inl h
        · rcases List.mem_cons.mp h with h | h
          · exact Or.inl (h ▸ he)
          · exact Or.inr h
    · rw [if_neg he]
      simp only [List.mem_append, List.mem_singleton, List.mem_cons]
      tauto

theorem mem_fold_union {gs : List (List Nat)} {x : Nat} :
    x ∈ fold_union gs ↔ ∃ g ∈ gs, x ∈ g := by
  have aux : ∀ (l : List (List Nat)) (acc : List Nat),
      x ∈ l.foldl (fun acc elem => elem.foldl push_unique acc) acc ↔
        x ∈ acc ∨ ∃ g ∈ l, x ∈ g := by
    intro l
    induction l with
    | nil => intro acc; simp
    | cons g rest ih =>
      intro acc
      rw [List.foldl_cons, ih, mem_foldl_push_unique]
      simp only [List.mem_cons]
      constructor
      · rintro ((h | h) | ⟨g2, hg2, hx⟩)
        · exact Or.inl h
        · exact Or.inr ⟨g, Or.inl rfl, h⟩
        · exact Or.inr ⟨g2, Or.inr hg2, hx⟩
      · rintro (h | ⟨g2, hg2 | hg2, hx⟩)
        · exact Or.inl (Or.inl h)
        · exact Or.inl (Or.inr (hg2 ▸ hx))
        · exact Or.inr ⟨g2, hg2, hx⟩
  rw [fold_union, aux]
  simp

/-! Helper lemmas about initIndexes. -/

theorem length_initIndexes (n : Nat) : (initIndexes n).length = n := by
  simp [initIndexes]

theorem initIndexes_succ (n : Nat) : initIndexes (n + 1) = initIndexes n ++ [[n]] := by
  rw [initIndexes, List.range_succ, List.map_append, initIndexes]
  rfl

theorem get_index_initIndexes_ge {n s : Nat} (h : n ≤ s) :
    get_index (initIndexes n) s = none := by
  induction n with
  | zero => rfl
  | succ m ih =>
    rw [initIndexes_succ, get_index_append_none _ (ih (by omega))]
    have hne : s ∉ ([m] : List Nat) := by
      simp only [List.mem_singleton]
      omega
    rw [get_index, if_neg hne]
    rfl

theorem get_index_initIndexes_lt {n s : Nat} (h : s < n) :
    get_index (initIndexes n) s = some s := by
  induction n with
  | zero => omega
  | succ m ih =>
    rw [initIndexes_succ]
    by_cases hs : s < m
    · exact get_index_append_left _ (ih hs)
    · have hsm : s = m := by omega
      subst hsm
      rw [get_index_append_none _ (get_index_initIndexes_ge (Nat.le_refl s))]
      have hmem : s ∈ ([s] : List Nat) := List.mem_singleton.mpr rfl
      rw [get_index, if_pos hmem]
      simp [length_initIndexes]

/-! Structural lemmas about the two splice bodies and the step function. -/

theorem insertAt_ok {st st' : PatchState} {ip : Nat} {source : List Nat}
    (h : insertAt st ip source = .ok st') :
    ip ≤ st.source.length ∧
    st'.source = st.source.take ip ++ source ++ st.source.drop ip ∧
    st'.indexes = st.indexes.take ip ++ List.replicate source.length [USIZE_MAX] ++ st.indexes.drop ip := by
  rw [insertAt] at h
  split at h
  · injection h with h
    subst h
    exact ⟨by assumption, rfl, rfl⟩
  · cases h

theorem removeAt_ok {st st' : PatchState} {ip count : Nat}
    (h : removeAt st ip count = .ok st') :
    ip + count ≤ st.indexes.length ∧ ip + count ≤ st.source.length ∧
    st'.source = st.source.take ip ++ st.source.drop (ip + count) ∧
    st'.indexes = st.indexes.take ip ++ [fold_union ((st.indexes.drop ip).take count)]
      ++ st.indexes.drop (ip + count) := by
  rw [removeAt] at h
  split at h
  · split at h
    · injection h with h
      subst h
      exact ⟨by assumption, by assumption, rfl, rfl⟩
    · cases h
  · cases h

theorem applyPatch_insert_eq {st : PatchState} {way : Direction} {spot p0 : Nat}
    {source : List Nat} (h : get_index st.indexes spot = some p0) :
    applyPatch st (.Insert way spot source)
      = insertAt st (match way with | .Pre => p0 | .Post => p0 + 1) source := by
  rw [applyPatch, h]

theorem applyPatch_remove_post_eq {st : PatchState} {spot p0 count : Nat}
    (h : get_index st.indexes spot = some p0) :
    applyPatch st (.Remove .Post spot count) = removeAt st (p0 + 1) count := by
  rw [applyPatch, h]

theorem applyPatch_remove_pre_eq {st : PatchState} {spot p0 count : Nat}
    (h : get_index st.indexes spot = some p0) (hc : count ≤ p0) :
    applyPatch st (.Remove .Pre spot count) = removeAt st (p0 - count) count := by
  rw [applyPatch, h]
  simp [hc]

theorem applyPatch_remove_ok {st st' : PatchState} {way : Direction} {spot count : Nat}
    (h : applyPatch st (.Remove way spot count) = .ok st') :
    ∃ ip, removeAt st ip count = .ok st' := by
  rw [applyPatch] at h
  split at h
  · cases h
  · split at h
    · exact ⟨_, h⟩
    · split at h
      · exact ⟨_, h⟩
      · cases h

theorem removeAt_merge {st st' : PatchState} {ip count : Nat}
    (h : removeAt st ip count = .ok st') :
    ip + count ≤ st.indexes.length ∧
    st'.indexes = st.indexes.take ip ++ [fold_union ((st.indexes.drop ip).take count)]
      ++ st.indexes.drop (ip + count) ∧
    (∀ x, x ∈ fold_union ((st.indexes.drop ip).take count) ↔
      ∃ g ∈ (st.indexes.drop ip).take count, x ∈ g) ∧
    (∀ x, x ∈ fold_union ((st.indexes.drop ip).take count) →
      (∀ g ∈ st.indexes.take ip, x ∉ g) →
      get_index st'.indexes x = some ip) := by
  obtain ⟨hι, hσ, hsrc, hidx⟩ := removeAt_ok h
  refine ⟨hι, hidx, fun x => mem_fold_union, ?_⟩
  intro x hx hnot
  rw [hidx, List.append_assoc]
  rw [get_index_append_none _ (get_index_eq_none hnot)]
  rw [List.singleton_append, get_index, if_pos hx]
  have hipl : ip ≤ st.indexes.length := le_trans (Nat.le_add_right ip count) hι
  simp [List.length_take, Nat.min_eq_left hipl]

theorem removeAt_length {st st' : PatchState} {ip count : Nat}
    (h : removeAt st ip count = .ok st') :
    st'.indexes.length + count = st.indexes.length + 1 ∧
    st'.source.length + count = st.source.length := by
  obtain ⟨hι, hσ, hsrc, hidx⟩ := removeAt_ok h
  have hipl : ip ≤ st.indexes.length := le_trans (Nat.le_add_right ip count) hι
  have hips : ip ≤ st.source.length := le_trans (Nat.le_add_right ip count) hσ
  constructor
  · rw [hidx]
    simp [List.length_append, List.length_take, List.length_drop, Nat.min_eq_left hipl]
    omega
  · rw [hsrc]
    simp [List.length_append, List.length_take, List.length_drop, Nat.min_eq_left hips]
    omega

theorem applyPatch_insert_delta {st st' : PatchState} {way : Direction} {spot : Nat}
    {src : List Nat} {d : Nat} (h : applyPatch st (.Insert way spot src) = .ok st')
    (hd : st.indexes.length = st.source.length + d) :
    st'.indexes.length = st'.source.length + d := by
  rw [applyPatch] at h
  split at h
  · cases h
  · next p0 heq =>
    obtain ⟨hle, hsrc, hidx⟩ := insertAt_ok h
    have hp0 := get_index_lt_length heq
    have hip : (match way with | Direction.Pre => p0 | Direction.Post => p0 + 1)
        ≤ st.indexes.length := by
      cases way <;> dsimp only <;> omega
    have l1 : st'.indexes.length = st.indexes.length + src.length := by
      rw [hidx]
      simp [List.length_append, List.length_take, List.length_drop, Nat.min_eq_left hip]
      omega
    have l2 : st'.source.length = st.source.length + src.length := by
      rw [hsrc]
      simp [List.length_append, List.length_take, List.length_drop, Nat.min_eq_left hle]
      omega
    omega

theorem applyPatch_remove_delta {st st' : PatchState} {way : Direction} {spot count : Nat}
    {d : Nat} (h : applyPatch st (.Remove way spot count) = .ok st')
    (hd : st.indexes.length = st.source.length + d) :
    st'.indexes.length = st'.source.length + d + 1 := by
  obtain ⟨ip, hrm⟩ := applyPatch_remove_ok h
  obtain ⟨l1, l2⟩ := removeAt_length hrm
  omega

theorem applyPatches_length (st st' : PatchState) (d : Nat)
    (ps : List (AssuoPatch (List Nat)))
    (h : applyPatches st ps = .ok st') (hd : st.indexes.length = st.source.length + d) :
    st'.indexes.length = st'.source.length + d + countRemoves ps := by
  induction ps generalizing st d with
  | nil =>
    rw [applyPatches] at h
    injection h with h
    subst h
    simpa [countRemoves] using hd
  | cons p rest ih =>
    rw [applyPatches] at h
    split at h
    · next st1 hp =>
      cases p with
      | Insert way spot src =>
        have h1 := applyPatch_insert_delta hp hd
        have h2 := ih st1 d h h1
        rw [countRemoves]
        simpa using h2
      | Remove way spot count =>
        have h1 := applyPatch_remove_delta hp hd
        have h2 := ih st1 (d + 1) h h1
        rw [countRemoves]
        omega
    · cases h

theorem insertAt_shift {st st' : PatchState} {ip : Nat} {src : List Nat}
    (h : insertAt st ip src = .ok st') (hip : ip ≤ st.indexes.length) :
    st'.indexes = st.indexes.take ip ++ List.replicate src.length [USIZE_MAX]
      ++ st.indexes.drop ip ∧
    ∀ s p, s ≠ USIZE_MAX → get_index st.indexes s = some p →
      get_index st'.indexes s = some (if p < ip then p else p + src.length) := by
  obtain ⟨hle, hsrc, hidx⟩ := insertAt_ok h
  refine ⟨hidx, ?_⟩
  intro s p hs hp
  rw [hidx, List.append_assoc]
  by_cases hplt : p < ip
  · rw [get_index_append_left _ (get_index_take_some _ hp hip hplt), if_pos hplt]
  · have hge : ip ≤ p := by omega
    rw [get_index_append_none _ (get_index_take_none _ hp hip hge)]
    have hrep : get_index (List.replicate src.length [USIZE_MAX]) s = none :=
      get_index_replicate_none _ (by simp only [List.mem_singleton]; exact hs)
    rw [get_index_append_none _ hrep, get_index_drop _ hp hip hge]
    rw [if_neg hplt]
    simp [List.length_replicate, List.length_take, Nat.min_eq_left hip]
    omega

/-! Helper lemmas about resolution. -/

theorem resolve_error_eq {s : AssuoSource} {e : PatchError}
    (h : s.resolve = .error e) : e = .resolutionError := by
  cases s with
  | Bytes b => cases h
  | Text t => cases h
  | Url u => injection h with h; exact h.symm
  | File f => injection h with h; exact h.symm
  | AssuoUrl u => injection h with h; exact h.symm
  | AssuoFile f => injection h with h; exact h.symm

theorem resolvePatch_error_eq {p : AssuoPatch AssuoSource} {e : PatchError}
    (h : p.resolve = .error e) : e = .resolutionError := by
  cases p with
  | Insert way spot source =>
    rw [AssuoPatch.resolve] at h
    cases hs : source.resolve with
    | ok b => rw [hs] at h; cases h
    | error e2 =>
      rw [hs] at h
      injection h with h
      rw [← h]
      exact resolve_error_eq hs
  | Remove way spot count => rw [AssuoPatch.resolve] at h; cases h

theorem resolvePatches_error_mid (ps1 : List (AssuoPatch AssuoSource))
    {p : AssuoPatch AssuoSource} (ps2 : List (AssuoPatch AssuoSource))
    (h : p.resolve = .error .resolutionError) :
    resolvePatches (ps1 ++ p :: ps2) = .error .resolutionError := by
  induction ps1 with
  | nil => rw [List.nil_append, resolvePatches, h]
  | cons q rest ih =>
    rw [List.cons_append, resolvePatches]
    cases hq : q.resolve with
    | error e => rw [resolvePatch_error_eq hq]
    | ok rq => rw [ih]

/-! Claim theorems. -/

/-- C1: after a successful Remove the offset map replaces the removed range
by one single merged group holding exactly the union of the removed groups,
and every offset of that union that does not occur before the range locates
to the merge position, the boundary index of the deleted range, so all such
offsets locate to the same live position; on base b"abcdef", Remove spot 2
Post count 2 followed by Insert spot 3 Pre of byte 88 succeeds and yields
b"abcXf". -/
theorem remove_merge_invariant (st st' : PatchState) (way : Direction) (spot count : Nat)
    (h : applyPatch st (.Remove way spot count) = .ok st') :
    (∃ ip, ip + count ≤ st.indexes.length ∧
      st'.indexes = st.indexes.take ip ++ [fold_union ((st.indexes.drop ip).take count)]
        ++ st.indexes.drop (ip + count) ∧
      (∀ x, x ∈ fold_union ((st.indexes.drop ip).take count) ↔
        ∃ g ∈ (st.indexes.drop ip).take count, x ∈ g) ∧
      (∀ x, x ∈ fold_union ((st.indexes.drop ip).take count) →
        (∀ g ∈ st.indexes.take ip, x ∉ g) →
        get_index st'.indexes x = some ip)) ∧
    apply_base [97, 98, 99, 100, 101, 102] [.Remove .Post 2 2, .Insert .Pre 3 [88]]
      = .ok [97, 98, 99, 88, 102] := by
  refine ⟨?_, by decide⟩
  obtain ⟨ip, hrm⟩ := applyPatch_remove_ok h
  exact ⟨ip, removeAt_merge hrm⟩

/-- C1 witness: the merge theorem applied to base b"abcdef" with
Remove spot 2 Post count 2. -/
theorem remove_merge_invariant_witness :
    applyPatch ⟨[97, 98, 99, 100, 101, 102], initIndexes 6⟩ (.Remove .Post 2 2)
      = .ok ⟨[97, 98, 99, 102], [[0], [1], [2], [3, 4], [5]]⟩ ∧
    apply_base [97, 98, 99, 100, 101, 102] [.Remove .Post 2 2, .Insert .Pre 3 [88]]
      = .ok [97, 98, 99, 88, 102] :=
  ⟨by decide,
    (remove_merge_invariant ⟨[97, 98, 99, 100, 101, 102], initIndexes 6⟩
      ⟨[97, 98, 99, 102], [[0], [1], [2], [3, 4], [5]]⟩ .Post 2 2 (by decide)).2⟩

/-- C2: a single Insert with direction Post on a base B at a spot s inside B
yields B[0..=s] ++ X ++ B[s+1..], and with direction Pre it yields
B[0..s] ++ X ++ B[s..]; in particular b"Hello!" with Insert spot 4 Post
", World" yields b"Hello, World!". -/
theorem single_insert_postcondition (B X : List Nat) (s : Nat) (h : s < B.length) :
    apply_base B [.Insert .Post s X] = .ok (B.take (s + 1) ++ X ++ B.drop (s + 1)) ∧
    apply_base B [.Insert .Pre s X] = .ok (B.take s ++ X ++ B.drop s) ∧
    apply_base [72, 101, 108, 108, 111, 33] [.Insert .Post 4 [44, 32, 87, 111, 114, 108, 100]]
      = .ok [72, 101, 108, 108, 111, 44, 32, 87, 111, 114, 108, 100, 33] := by
  have hg : get_index (initIndexes B.length) s = some s := get_index_initIndexes_lt h
  refine ⟨?_, ?_, by decide⟩
  · simp only [apply_base, applyPatches, applyPatch, insertAt, hg]
    rw [if_pos (show s + 1 ≤ B.length by omega)]
  · simp only [apply_base, applyPatches, applyPatch, insertAt, hg]
    rw [if_pos (show s ≤ B.length by omega)]

/-- C2 witness: the single-insert theorem applied at base [97, 98], spot 0,
bytes [88]. -/
theorem single_insert_postcondition_witness :
    (0 : Nat) < ([97, 98] : List Nat).length ∧
    apply_base [97, 98] [.Insert .Post 0 [88]]
      = .ok (([97, 98] : List Nat).take 1 ++ [88] ++ ([97, 98] : List Nat).drop 1) :=
  ⟨by decide, (single_insert_postcondition [97, 98] [88] 0 (by decide)).1⟩

/-- C3 counterexample: the claim omits the requirement that the spot itself
be inside the base for a Before removal. On base [97] with Remove spot 1
Pre count 1 the side condition of the claim, count at most spot, holds, yet
the engine fails with outOfBounds instead of returning the base with range
[0, 1) deleted. -/
theorem single_remove_pre_needs_inbounds_spot :
    apply_base [97] [.Remove .Pre 1 1] = .error .outOfBounds ∧
    apply_base [97] [.Remove .Pre 1 1]
      ≠ .ok (([97] : List Nat).take 0 ++ ([97] : List Nat).drop 1) := by
  decide

/-- C3 amended: a single Remove with direction Post and s + 1 + c at most
the length of B deletes the byte range [s+1, s+1+c); a single Remove with
direction Pre, spot s inside B and c at most s deletes the byte range
[s-c, s). -/
theorem single_remove_postcondition (B : List Nat) (s c : Nat) :
    (s + 1 + c ≤ B.length →
      apply_base B [.Remove .Post s c] = .ok (B.take (s + 1) ++ B.drop (s + 1 + c))) ∧
    (s < B.length → c ≤ s →
      apply_base B [.Remove .Pre s c] = .ok (B.take (s - c) ++ B.drop s)) := by
  constructor
  · intro hb
    have hg : get_index (initIndexes B.length) s = some s := get_index_initIndexes_lt (by omega)
    simp only [apply_base, applyPatches, applyPatch, removeAt, hg, length_initIndexes]
    rw [if_pos hb, if_pos hb]
  · intro hsb hc
    have hg : get_index (initIndexes B.length) s = some s := get_index_initIndexes_lt hsb
    simp only [apply_base, applyPatches, applyPatch, removeAt, hg, length_initIndexes]
    rw [if_pos hc, Nat.sub_add_cancel hc]
    rw [if_pos (Nat.le_of_lt hsb), if_pos (Nat.le_of_lt hsb)]

/-- C3 witness: the single-remove theorem applied at base [97, 98, 99] with
Remove spot 0 Post count 1 and Remove spot 1 Pre count 1. -/
theorem single_remove_postcondition_witness :
    (0 + 1 + 1 ≤ ([97, 98, 99] : List Nat).length) ∧
    apply_base [97, 98, 99] [.Remove .Post 0 1]
      = .ok (([97, 98, 99] : List Nat).take 1 ++ ([97, 98, 99] : List Nat).drop 2) ∧
    (1 < ([97, 98, 99] : List Nat).length) ∧ ((1 : Nat) ≤ 1) ∧
    apply_base [97, 98, 99] [.Remove .Pre 1 1]
      = .ok (([97, 98, 99] : List Nat).take 0 ++ ([97, 98, 99] : List Nat).drop 1) :=
  ⟨by decide, (single_remove_postcondition [97, 98, 99] 0 1).1 (by decide), by decide, by decide,
    (single_remove_postcondition [97, 98, 99] 1 1).2 (by decide) (by decide)⟩

/-- C4 counterexample: the offset map does not keep one group per live
buffer position. After Remove spot 0 Post count 1 on base [97, 98] the
buffer holds one byte while the offset map holds two groups. -/
theorem offset_map_misalignment_after_remove :
    applyPatches ⟨[97, 98], initIndexes 2⟩ [.Remove .Post 0 1] = .ok ⟨[97], [[0], [1]]⟩ ∧
    ¬ ([[0], [1]] : List (List Nat)).length = ([97] : List Nat).length := by
  decide

/-- C4 amended: starting from the aligned initial state, the number of
groups in the offset map equals the buffer length plus the number of Remove
edits applied so far, because an Insert grows map and buffer equally while
a Remove shrinks the buffer by count but the map only by count minus one. -/
theorem offset_map_length_after_patches (B : List Nat) (ps : List (AssuoPatch (List Nat)))
    (st' : PatchState) (h : applyPatches ⟨B, initIndexes B.length⟩ ps = .ok st') :
    st'.indexes.length = st'.source.length + countRemoves ps := by
  have h0 : (⟨B, initIndexes B.length⟩ : PatchState).indexes.length
      = (⟨B, initIndexes B.length⟩ : PatchState).source.length + 0 := by
    simp [length_initIndexes]
  simpa using applyPatches_length ⟨B, initIndexes B.length⟩ st' 0 ps h h0

/-- C4 witness: the length relation applied to base [97, 98] after one
Remove. -/
theorem offset_map_length_after_patches_witness :
    applyPatches ⟨[97, 98], initIndexes 2⟩ [.Remove .Post 0 1] = .ok ⟨[97], [[0], [1]]⟩ ∧
    (⟨[97], [[0], [1]]⟩ : PatchState).indexes.length
      = (⟨[97], [[0], [1]]⟩ : PatchState).source.length + countRemoves [.Remove .Post 0 1] :=
  ⟨by decide, offset_map_length_after_patches [97, 98] _ _ (by decide)⟩

/-- C5 counterexample: sentinel groups are not empty sets. They are
singletons holding usize::MAX, so an edit whose spot is usize::MAX locates
directly to a position holding a newly inserted byte: after inserting byte
88 after spot 0 of base [97], spot USIZE_MAX locates to position 1, which
holds the new byte 88, and a second insert addressed at USIZE_MAX succeeds
instead of failing. -/
theorem sentinel_located_by_usize_max :
    get_index [[0], [USIZE_MAX]] USIZE_MAX = some 1 ∧
    apply_base [97] [.Insert .Post 0 [88], .Insert .Pre USIZE_MAX [89]] = .ok [97, 89, 88] := by
  constructor
  · decide
  · decide

/-- C5 amended: the groups spliced in for newly inserted bytes are the
singletons [USIZE_MAX], and any spot other than USIZE_MAX that located to
position p before the insert locates afterwards to the same group, shifted
to p plus the insertion length when the sentinel block lies at or before p;
it therefore never locates into the sentinel block. -/
theorem sentinel_groups_are_usize_max_singletons (st st' : PatchState) (way : Direction)
    (spot : Nat) (src : List Nat)
    (h : applyPatch st (.Insert way spot src) = .ok st') :
    ∃ ip, ip ≤ st.indexes.length ∧
      st'.indexes = st.indexes.take ip ++ List.replicate src.length [USIZE_MAX]
        ++ st.indexes.drop ip ∧
      ∀ s p, s ≠ USIZE_MAX → get_index st.indexes s = some p →
        get_index st'.indexes s = some (if p < ip then p else p + src.length) := by
  rw [applyPatch] at h
  split at h
  · cases h
  · next p0 heq =>
    have hp0 := get_index_lt_length heq
    cases way with
    | Pre =>
      have hip : p0 ≤ st.indexes.length := by omega
      obtain ⟨hidx, hshift⟩ := insertAt_shift h hip
      exact ⟨p0, hip, hidx, hshift⟩
    | Post =>
      have hip : p0 + 1 ≤ st.indexes.length := by omega
      obtain ⟨hidx, hshift⟩ := insertAt_shift h hip
      exact ⟨p0 + 1, hip, hidx, hshift⟩

/-- C5 witness: the sentinel theorem applied to base [97] with Insert
spot 0 Post of byte 88. -/
theorem sentinel_groups_are_usize_max_singletons_witness :
    applyPatch ⟨[97], initIndexes 1⟩ (.Insert .Post 0 [88])
      = .ok ⟨[97, 88], [[0], [USIZE_MAX]]⟩ ∧
    ∃ ip, ip ≤ (⟨[97], initIndexes 1⟩ : PatchState).indexes.length ∧
      (⟨[97, 88], [[0], [USIZE_MAX]]⟩ : PatchState).indexes
        = (⟨[97], initIndexes 1⟩ : PatchState).indexes.take ip
          ++ List.replicate ([88] : List Nat).length [USIZE_MAX]
          ++ (⟨[97], initIndexes 1⟩ : PatchState).indexes.drop ip ∧
      ∀ s p, s ≠ USIZE_MAX →
        get_index (⟨[97], initIndexes 1⟩ : PatchState).indexes s = some p →
        get_index (⟨[97, 88], [[0], [USIZE_MAX]]⟩ : PatchState).indexes s
          = some (if p < ip then p else p + ([88] : List Nat).length) :=
  ⟨by decide,
    sentinel_groups_are_usize_max_singletons ⟨[97], initIndexes 1⟩
      ⟨[97, 88], [[0], [USIZE_MAX]]⟩ .Post 0 [88] (by decide)⟩

/-- C6: an edit whose spot is contained in no group of the current offset
map makes the whole run fail with outOfBounds, whatever edits follow, so no
output is produced; and a spot at or beyond the base length is contained in
no group of the initial offset map. -/
theorem unlocatable_spot_out_of_bounds (st : PatchState) (p : AssuoPatch (List Nat))
    (rest : List (AssuoPatch (List Nat))) (h : get_index st.indexes p.spotOf = none) :
    applyPatches st (p :: rest) = .error .outOfBounds ∧
    ∀ n s : Nat, n ≤ s → get_index (initIndexes n) s = none := by
  refine ⟨?_, fun n s hns => get_index_initIndexes_ge hns⟩
  cases p with
  | Insert way spot source =>
    simp only [AssuoPatch.spotOf] at h
    simp [applyPatches, applyPatch, h]
  | Remove way spot count =>
    simp only [AssuoPatch.spotOf] at h
    simp [applyPatches, applyPatch, h]

/-- C6 witness: the out-of-bounds theorem applied to base [97] and an
insert at the never-valid spot 5. -/
theorem unlocatable_spot_out_of_bounds_witness :
    get_index (⟨[97], initIndexes 1⟩ : PatchState).indexes
      (AssuoPatch.spotOf (.Insert .Post 5 ([88] : List Nat))) = none ∧
    applyPatches ⟨[97], initIndexes 1⟩ [.Insert .Post 5 [88]] = .error .outOfBounds :=
  ⟨by decide,
    (unlocatable_spot_out_of_bounds ⟨[97], initIndexes 1⟩ (.Insert .Post 5 [88]) [] (by decide)).1⟩

/-- C7: a Remove with direction Pre whose count exceeds the located position
fails with underflow and aborts the run; the start position is never
produced by wraparound of the unsigned subtraction. -/
theorem before_remove_underflow (st : PatchState) (spot count p0 : Nat)
    (rest : List (AssuoPatch (List Nat)))
    (h1 : get_index st.indexes spot = some p0) (h2 : p0 < count) :
    applyPatches st (.Remove .Pre spot count :: rest) = .error .underflow := by
  simp only [applyPatches, applyPatch, h1]
  rw [if_neg (by omega : ¬ count ≤ p0)]

/-- C7 witness: the underflow theorem applied to base [97, 98] with Remove
spot 0 Pre count 1. -/
theorem before_remove_underflow_witness :
    get_index (⟨[97, 98], initIndexes 2⟩ : PatchState).indexes 0 = some 0 ∧ (0 : Nat) < 1 ∧
    applyPatches ⟨[97, 98], initIndexes 2⟩ [.Remove .Pre 0 1] = .error .underflow :=
  ⟨by decide, by decide,
    before_remove_underflow ⟨[97, 98], initIndexes 2⟩ 0 1 0 [] (by decide) (by decide)⟩

/-- C8 counterexample: a Remove with count 0 is not a no-op. On base
[97, 98, 99] a zero-count Remove at spot 0 Post followed by Insert spot 1
Pre of byte 88 yields [97, 98, 88, 99], while the same edit list without
the zero-count Remove yields [97, 88, 98, 99]. -/
theorem zero_count_remove_changes_output :
    apply_base [97, 98, 99] [.Remove .Post 0 0, .Insert .Pre 1 [88]] = .ok [97, 98, 88, 99] ∧
    apply_base [97, 98, 99] [.Insert .Pre 1 [88]] = .ok [97, 88, 98, 99] ∧
    ([97, 98, 88, 99] : List Nat) ≠ [97, 88, 98, 99] := by
  decide

/-- C8 amended: a successful Remove with count 0 leaves the buffer
unchanged but splices one empty group into the offset map at the computed
position, so it can change where later edits resolve. -/
theorem zero_count_remove_splices_empty_group (st st' : PatchState) (way : Direction)
    (spot : Nat) (h : applyPatch st (.Remove way spot 0) = .ok st') :
    st'.source = st.source ∧
    ∃ ip, ip ≤ st.indexes.length ∧
      st'.indexes = st.indexes.take ip ++ [[]] ++ st.indexes.drop ip := by
  obtain ⟨ip, hrm⟩ := applyPatch_remove_ok h
  obtain ⟨hι, hσ, hsrc, hidx⟩ := removeAt_ok hrm
  constructor
  · rw [hsrc, Nat.add_zero, List.take_append_drop]
  · refine ⟨ip, by omega, ?_⟩
    rw [hidx, Nat.add_zero, List.take_zero]
    rfl

/-- C8 witness: the zero-count theorem applied to base [97, 98, 99] with
Remove spot 0 Post count 0. -/
theorem zero_count_remove_splices_empty_group_witness :
    applyPatch ⟨[97, 98, 99], initIndexes 3⟩ (.Remove .Post 0 0)
      = .ok ⟨[97, 98, 99], [[0], [], [1], [2]]⟩ ∧
    ((⟨[97, 98, 99], [[0], [], [1], [2]]⟩ : PatchState).source
        = (⟨[97, 98, 99], initIndexes 3⟩ : PatchState).source ∧
      ∃ ip, ip ≤ (⟨[97, 98, 99], initIndexes 3⟩ : PatchState).indexes.length ∧
        (⟨[97, 98, 99], [[0], [], [1], [2]]⟩ : PatchState).indexes
          = (⟨[97, 98, 99], initIndexes 3⟩ : PatchState).indexes.take ip ++ [[]]
            ++ (⟨[97, 98, 99], initIndexes 3⟩ : PatchState).indexes.drop ip) :=
  ⟨by decide,
    zero_count_remove_splices_empty_group ⟨[97, 98, 99], initIndexes 3⟩
      ⟨[97, 98, 99], [[0], [], [1], [2]]⟩ .Post 0 (by decide)⟩

/-- C9: Bytes resolves to its bytes unchanged, Text resolves to the UTF-8
encoding of its string, and each of Url, File, AssuoUrl and AssuoFile
signals resolutionError; a patch list containing any unresolvable source
makes the whole do_patch run abort with resolutionError and produce no
output, whatever the base and the surrounding patches. -/
theorem resolve_behaviour :
    (∀ b, AssuoSource.resolve (.Bytes b) = .ok b) ∧
    (∀ t, AssuoSource.resolve (.Text t)
      = .ok ((t.data.flatMap String.utf8EncodeChar).map (fun byte => byte.toNat))) ∧
    (∀ u, AssuoSource.resolve (.Url u) = .error .resolutionError) ∧
    (∀ f, AssuoSource.resolve (.File f) = .error .resolutionError) ∧
    (∀ u, AssuoSource.resolve (.AssuoUrl u) = .error .resolutionError) ∧
    (∀ f, AssuoSource.resolve (.AssuoFile f) = .error .resolutionError) ∧
    (∀ (src : AssuoSource) (ps1 ps2 : List (AssuoPatch AssuoSource)) (way : Direction)
      (spot : Nat) (u : String),
      do_patch ⟨src, some (ps1 ++ .Insert way spot (.Url u) :: ps2)⟩
        = .error .resolutionError) := by
  refine ⟨fun b => rfl, fun t => rfl, fun u => rfl, fun f => rfl, fun u => rfl, fun f => rfl, ?_⟩
  intro src ps1 ps2 way spot u
  have hmid : resolvePatches (ps1 ++ AssuoPatch.Insert way spot (AssuoSource.Url u) :: ps2)
      = .error .resolutionError := resolvePatches_error_mid ps1 ps2 rfl
  rw [do_patch]
  cases hs : src.resolve with
  | error e =>
    have he : e = PatchError.resolutionError := resolve_error_eq hs
    subst he
    rfl
  | ok source =>
    dsimp only [Option.getD]
    rw [hmid]

/-- C10: implicit claim that a Remove with direction Post whose removal
range reaches past the end of the offset map fails fatally for the whole
run instead of silently removing fewer bytes. -/
theorem after_remove_range_overrun (st : PatchState) (spot count p0 : Nat)
    (rest : List (AssuoPatch (List Nat)))
    (h1 : get_index st.indexes spot = some p0)
    (h2 : st.indexes.length < p0 + 1 + count) :
    applyPatches st (.Remove .Post spot count :: rest) = .error .rangeOverrun := by
  simp only [applyPatches, applyPatch, removeAt, h1]
  rw [if_neg (by omega : ¬ p0 + 1 + count ≤ st.indexes.length)]

/-- C10 witness: the overrun theorem applied to base [97] with Remove
spot 0 Post count 1. -/
theorem after_remove_range_overrun_witness :
    get_index (⟨[97], initIndexes 1⟩ : PatchState).indexes 0 = some 0 ∧
    (⟨[97], initIndexes 1⟩ : PatchState).indexes.length < 0 + 1 + 1 ∧
    applyPatches ⟨[97], initIndexes 1⟩ [.Remove .Post 0 1] = .error .rangeOverrun :=
  ⟨by decide, by decide,
    after_remove_range_overrun ⟨[97], initIndexes 1⟩ 0 1 0 [] (by decide) (by decide)⟩

end Assuo
